import Mathlib

/-!
Verification development for the week-planner terminal application.

The Python sources are shallowly embedded:
* `activity.py` — `Activity`, `read_activities`, `write_activities` (files are
  modelled as `List Char`, Python `int()` / `str()` as `pyInt` / `pyStrOfInt`).
* `states.py` — the navigation stack (`NavSys`: the global `state_history`
  list together with the current screen's `next_state` slot and a fresh-id
  counter for newly constructed screens) and the scheduler
  (`adjust_priorities`, the weighted pool of `get_random_activity`).
  A plan file is modelled as the list of its parsed entries, i.e. the value
  `line.split(":")[1].strip()` for each line, given most-recent-first
  (the source sorts the filenames in reverse order before scanning).
  `random.choice` is modelled with an oracle index `k`; on an empty list it
  raises `IndexError`, modelled as `Except.error`.
* `components.py` — `Combobox.handle_input`, `MenuList.handle_input` /
  `scroll` / `wrap`, and `Container.handle_input` for the down-arrow key.
-/

namespace WeekPlanner

/-! ## curses key constants (ncurses values) -/

def KEY_DOWN : Int := 258

def KEY_UP : Int := 259

def KEY_LEFT : Int := 260

def KEY_RIGHT : Int := 261

def KEY_HOME : Int := 262

def KEY_END : Int := 360

def KEY_NPAGE : Int := 338

def KEY_PPAGE : Int := 339

def KEY_ENTER : Int := 343

def KEY_ESC : Int := 27

/-! ## activity.py: the Activity record -/

/-- `Activity` from activity.py: a name (`choice`) and an integer priority. -/
structure Activity where
  choice : String
  priority : Int
  deriving DecidableEq, Repr

/-! ## states.py: the history-weighted scheduler -/

/-- One plan-file scan of `State.adjust_priorities` (states.py lines 74-81):
for each entry of the plan, if the name is still in the working set
(`all_activities`), append it to the cumulative `found_activities` list and
remove it from the working set.  Returns the updated
`(found_activities, all_activities)` pair. -/
def processPlanLines : List String → List String → List String → List String × List String
  | [], found, remaining => (found, remaining)
  | e :: es, found, remaining =>
    if e ∈ remaining then processPlanLines es (found ++ [e]) (remaining.erase e)
    else processPlanLines es found remaining

/-- The priority bump of `State.adjust_priorities` (states.py lines 86-90):
every activity whose name is not in `found` gets its priority increased by 1. -/
def bumpNotFound (found : List String) (acts : List Activity) : List Activity :=
  acts.map (fun a => if a.choice ∈ found then a else ⟨a.choice, a.priority + 1⟩)

/-- The plan loop of `State.adjust_priorities` (states.py lines 74-94): scan
each plan, bump the activities not in the cumulative found list, and stop as
soon as the working set is empty. -/
def adjustLoop : List (List String) → List String → List String → List Activity → List Activity
  | [], _, _, acts => acts
  | p :: ps, found, remaining, acts =>
    let fr := processPlanLines p found remaining
    let acts' := bumpNotFound fr.1 acts
    if fr.2 = [] then acts' else adjustLoop ps fr.1 fr.2 acts'

/-- `State.adjust_priorities` (states.py lines 66-96), value level.  `plans`
holds the parsed entries of each plan file, most recent first.  The working
set starts as the names of all current activities and `found_activities`
starts empty. -/
def adjust_priorities (acts : List Activity) (plans : List (List String)) : List Activity :=
  adjustLoop plans [] (acts.map (·.choice)) acts

/-- The flat weighted pool of `State.get_random_activity` (states.py lines
58-62): each activity's name repeated `priority` times (`range` of a
non-positive Python int is empty, hence `Int.toNat`). -/
def buildPool (acts : List Activity) : List String :=
  acts.foldl (fun choices a => choices ++ List.replicate a.priority.toNat a.choice) []

/-- Python `random.choice`, with the random draw supplied as an oracle index
`k`: on a non-empty list it returns an element of the list, on an empty list
it raises `IndexError` (modelled as `Except.error`). -/
def random_choice (pool : List String) (k : Nat) : Except String String :=
  match pool with
  | [] => Except.error "Cannot choose from an empty sequence"
  | _ => Except.ok (pool.getD (k % pool.length) "")

/-- `State.get_random_activity` (states.py lines 53-64) given the activity
list read from activities.txt: adjust priorities, build the weighted pool,
and draw. -/
def get_random_activity (acts : List Activity) (plans : List (List String)) (k : Nat) :
    Except String String :=
  random_choice (buildPool (adjust_priorities acts plans)) k

/-- Number of executed rounds of `adjustLoop` in which the name `n` is not in
the cumulative found list at bump time; used to characterise the final
priorities of `adjust_priorities`. -/
def roundsNotFound : List (List String) → List String → List String → String → Int
  | [], _, _, _ => 0
  | p :: ps, found, remaining, n =>
    let fr := processPlanLines p found remaining
    (if n ∈ fr.1 then 0 else 1) + (if fr.2 = [] then 0 else roundsNotFound ps fr.1 fr.2 n)

/-- Modelled from the spec's words, for the refinement comparison of the
priority-adjustment round: each round increments exactly the activities whose
name is not in the set of names found in that plan during that round (the
per-round found set, not the cumulative one). -/
def adjustLoopRoundLocal : List (List String) → List String → List Activity → List Activity
  | [], _, acts => acts
  | p :: ps, remaining, acts =>
    let fr := processPlanLines p [] remaining
    let acts' := bumpNotFound fr.1 acts
    if fr.2 = [] then acts' else adjustLoopRoundLocal ps fr.2 acts'

/-- Modelled from the spec's words: `adjust_priorities` as the spec describes
it, with a per-round found set. -/
def adjustPrioritiesSpec (acts : List Activity) (plans : List (List String)) : List Activity :=
  adjustLoopRoundLocal plans (acts.map (·.choice)) acts

/-! ## states.py: heap-level model of `adjust_priorities` for the aliasing
claim.  Python `Activity` objects are mutable references: the heap is a list
of records indexed by address, and the caller's activity list is a list of
addresses into the heap. -/

/-- Heap-level priority bump (states.py lines 86-90): for each address in the
caller's list, if the record's name is not in `found`, overwrite the record
with its priority increased by 1.  Records not referenced by `addrs` are
never touched. -/
def bumpHeap (addrs : List Nat) (found : List String) (heap : List Activity) : List Activity :=
  addrs.foldl (fun h addr =>
    match h[addr]? with
    | some a => if a.choice ∈ found then h else h.set addr ⟨a.choice, a.priority + 1⟩
    | none => h) heap

/-- Heap-level plan loop of `State.adjust_priorities`. -/
def adjustLoopHeap : List (List String) → List String → List String → List Nat → List Activity →
    List Activity
  | [], _, _, _, heap => heap
  | p :: ps, found, remaining, addrs, heap =>
    let fr := processPlanLines p found remaining
    let heap' := bumpHeap addrs fr.1 heap
    if fr.2 = [] then heap' else adjustLoopHeap ps fr.1 fr.2 addrs heap'

/-- The names of the activities referenced by the caller's list. -/
def heapNames (heap : List Activity) (addrs : List Nat) : List String :=
  addrs.filterMap (fun i => heap[i]?.map (·.choice))

/-- `State.adjust_priorities` at heap level: the caller passes a list of
references to `Activity` records; the function returns the heap after the
call (the source returns the same list object, so the address list is
unchanged). -/
def adjustPrioritiesHeap (heap : List Activity) (addrs : List Nat)
    (plans : List (List String)) : List Activity :=
  adjustLoopHeap plans [] (heapNames heap addrs) addrs heap

/-! ## states.py: the navigation state stack.

Screens are identified by the order of their construction (`fresh` is the
next unused id).  `State.__init__` appends the new screen to the global
`state_history`; `advance_state` is always called as
`self.advance_state(SomeState(stdscr))`, i.e. on a freshly constructed
screen; `regress_state` pops the history and targets the new top. -/

/-- The navigation system: the global `state_history` (last element is the
top of the stack), the current screen's `next_state` slot, and the next
fresh screen id. -/
structure NavSys where
  history : List Nat
  nextState : Option Nat
  fresh : Nat
  deriving DecidableEq, Repr

/-- `self.advance_state(SomeState(stdscr))` (states.py lines 43-44 together
with `State.__init__` lines 14-18): constructing the new screen appends it to
`state_history`, then `advance_state` stores it in `next_state`. -/
def advance_state (s : NavSys) : NavSys :=
  { history := s.history ++ [s.fresh], nextState := some s.fresh, fresh := s.fresh + 1 }

/-- `State.regress_state` (states.py lines 46-48): pop `state_history` and
set `next_state` to the new top (`none` models the `IndexError` of an empty
pop, unreachable in the program). -/
def regress_state (s : NavSys) : NavSys :=
  { s with history := s.history.dropLast, nextState := s.history.dropLast.getLast? }

/-- `State.update` (states.py lines 20-33).  Returns the new system state and,
if a transition resolved, the returned screen together with the Boolean
`regressing`, which is `true` exactly when `on_regress` is invoked on the
returned screen (the source checks `state_history[-1] == self.next_state`). -/
def navUpdate (s : NavSys) : NavSys × Option (Nat × Bool) :=
  match s.nextState with
  | none => (s, none)
  | some st => ({ s with nextState := none }, some (st, s.history.getLast? == some st))

/-! ## activity.py: file parsing.  A file and its lines are `List Char`. -/

/-- The characters stripped by Python `str.strip()` (and by `int()`): the
code points whose `str.isspace()` is true — the ASCII controls U+0009–U+000D
and U+001C–U+001F, the space, NEL U+0085, no-break space U+00A0, Ogham space
mark U+1680, the U+2000–U+200A range, the line and paragraph separators
U+2028/U+2029, narrow no-break space U+202F, medium mathematical space
U+205F, and ideographic space U+3000. -/
def pyIsSpace (c : Char) : Bool :=
  c.toNat = 0x20 || (0x9 ≤ c.toNat && c.toNat ≤ 0xd) || (0x1c ≤ c.toNat && c.toNat ≤ 0x1f) ||
  c.toNat = 0x85 || c.toNat = 0xa0 || c.toNat = 0x1680 ||
  (0x2000 ≤ c.toNat && c.toNat ≤ 0x200a) ||
  c.toNat = 0x2028 || c.toNat = 0x2029 || c.toNat = 0x202f || c.toNat = 0x205f ||
  c.toNat = 0x3000

/-- Python `str.strip()`: drop whitespace from both ends. -/
def stripChars (l : List Char) : List Char :=
  ((l.dropWhile pyIsSpace).reverse.dropWhile pyIsSpace).reverse

/-- Python `str.split(sep)` for a single-character separator. -/
def splitOnChar (sep : Char) : List Char → List (List Char)
  | [] => [[]]
  | c :: cs =>
    match splitOnChar sep cs with
    | [] => [[]]
    | r :: rs => if c = sep then [] :: r :: rs else (c :: r) :: rs

/-- Python `sep.join(parts)` for a single-character separator. -/
def joinWithChar (sep : Char) : List (List Char) → List Char
  | [] => []
  | [l] => l
  | l :: ls => l ++ sep :: joinWithChar sep ls

/-- The decimal digit character for `d < 10`. -/
def digitChar (d : Nat) : Char := Char.ofNat (48 + d)

/-- Digit accumulation with fuel (`fuel ≥ n` suffices since `n / 10 < n`). -/
def natToDigitsAux : Nat → Nat → List Char → List Char
  | 0, n, acc => digitChar n :: acc
  | fuel + 1, n, acc =>
    if n < 10 then digitChar n :: acc
    else natToDigitsAux fuel (n / 10) (digitChar (n % 10) :: acc)

/-- The decimal digit string of a natural number, most significant first. -/
def natToDigits (n : Nat) : List Char :=
  natToDigitsAux n n []

/-- Is `c` a decimal digit (code point between 48 and 57)? -/
def isDigitChar (c : Char) : Bool := 48 ≤ c.toNat && c.toNat ≤ 57

/-- The value of a decimal digit string (junk on non-digits). -/
def digitsVal (l : List Char) : Nat :=
  l.foldl (fun acc c => acc * 10 + (c.toNat - 48)) 0

/-- Parse a non-empty all-digit string. -/
def pyIntOfDigits (l : List Char) : Option Nat :=
  if l ≠ [] && l.all isDigitChar then some (digitsVal l) else none

/-- Python `int(s)` on an optionally signed decimal string with surrounding
whitespace; `none` models the `ValueError` raised on anything else.  (Digit
group underscores, which `write_activities` never produces, are not
modelled.) -/
def pyInt (s : List Char) : Option Int :=
  let t := stripChars s
  if t.head? = some '-' then (pyIntOfDigits t.tail).map (fun n => -(Int.ofNat n))
  else if t.head? = some '+' then (pyIntOfDigits t.tail).map (fun n => Int.ofNat n)
  else (pyIntOfDigits t).map (fun n => Int.ofNat n)

/-- Python `str(p)` for an int `p`, as used by the f-string of
`write_activities`. -/
def pyStrOfInt (p : Int) : List Char :=
  if p < 0 then '-' :: natToDigits p.natAbs else natToDigits p.toNat

/-- One line of `read_activities` (activity.py lines 14-16):
`choice = ",".join(line.strip().split(',')[:-1])`,
`priority = int(line.strip().split(',')[-1])`.  `none` models the
`ValueError` of `int` on a malformed line. -/
def parseActivityLine (line : List Char) : Option Activity :=
  let t := stripChars line
  let parts := splitOnChar ',' t
  match pyInt (parts.getLastD []) with
  | some p => some ⟨String.mk (joinWithChar ',' parts.dropLast), p⟩
  | none => none

/-- Python text-mode universal-newline translation (`open` with the default
`newline=None`): every `'\r\n'` pair and every lone `'\r'` in the decoded
stream is translated to `'\n'` before the program sees the text. -/
def normalizeNewlines : List Char → List Char
  | [] => []
  | [c] => if c = '\r' then ['\n'] else [c]
  | c :: d :: rest =>
    if c = '\r' then
      if d = '\n' then '\n' :: normalizeNewlines rest
      else '\n' :: normalizeNewlines (d :: rest)
    else c :: normalizeNewlines (d :: rest)

/-- Python file line iteration on a newline-translated stream: split on the
newline character; a trailing newline does not produce an extra empty line. -/
def fileLines (file : List Char) : List (List Char) :=
  let parts := splitOnChar '\n' file
  if parts.getLast? = some [] then parts.dropLast else parts

/-- `read_activities` (activity.py lines 11-17) on the raw file contents.
The file is opened in text mode, so universal-newline translation applies
before the lines are iterated. -/
def read_activities (file : List Char) : Option (List Activity) :=
  (fileLines (normalizeNewlines file)).mapM parseActivityLine

/-- The characters of one written line (without its terminating newline):
the f-string `"{activity.choice},{activity.priority}"`. -/
def lineChars (a : Activity) : List Char :=
  a.choice.data ++ ',' :: pyStrOfInt a.priority

/-- `write_activities` (activity.py lines 19-22): overwrite the file with one
newline-terminated line per activity, in list order. -/
def write_activities (acts : List Activity) : List Char :=
  (acts.map (fun a => lineChars a ++ ['\n'])).flatten

/-- Does the string not start with a (Python-strippable) whitespace
character?  Used to state the exact domain on which the activity-file round
trip is the identity. -/
def noLeadingSpace (s : String) : Bool :=
  match s.data with
  | [] => true
  | c :: _ => !pyIsSpace c

/-! ## components.py: Combobox -/

/-- The state of `Combobox` touched by `handle_input`: the item list and the
current index (a Python int). -/
structure Combobox where
  items : List String
  index : Int
  deriving DecidableEq, Repr

/-- `Combobox.handle_input` (components.py lines 125-132): left and right
arrows move the index, clamped at the ends; every other key (and the no-key
sentinel `-1`) leaves it unchanged. -/
def comboboxHandleInput (cb : Combobox) (key : Int) : Combobox :=
  if key = -1 then cb
  else if key = KEY_LEFT then { cb with index := max 0 (cb.index - 1) }
  else if key = KEY_RIGHT then { cb with index := min ((cb.items.length : Int) - 1) (cb.index + 1) }
  else cb

/-! ## components.py: MenuList -/

/-- The state of `MenuList` touched by `handle_input`: items, selection,
scroll offset and the current title block height. -/
structure MenuList where
  items : List String
  selected : Int
  offset : Int
  menuTitleHeight : Int
  deriving DecidableEq, Repr

/-- Modelled from the spec: `utils.clamp`, imported by components.py from the
`utils` module that is not among the sources; per the spec the page movement
is "clamped so the result stays within [0, len(items)-1]", i.e. `clamp`
restricts its first argument to the interval `[lo, hi]`. -/
def clamp (x lo hi : Int) : Int := max lo (min x hi)

/-- `MenuList.wrap` (components.py lines 375-382). -/
def menuWrap (selection mn mx : Int) : Int :=
  if selection < mn then mx else if selection > mx then mn else selection

/-- `MenuList.scroll` (components.py lines 363-373); `height` is the terminal
row count from `getmaxyx`. -/
def menuScroll (height titleH scroll selection : Int) : Int × Int :=
  if selection < scroll then (selection, selection)
  else if selection ≥ scroll + height - 1 - titleH then
    (selection - height + 1 + titleH, selection)
  else (scroll, selection)

/-- The `vinput` computed by the chain of `if` statements at the top of
`MenuList.handle_input` (components.py lines 228-249), reproduced in order. -/
def menuVinput (m : MenuList) (key : Int) : Int :=
  let v1 : Int := if key = KEY_UP then -1 else 0
  let v2 := if key = KEY_DOWN then v1 + 1 else v1
  let v3 := if key = KEY_PPAGE then
    clamp (v2 - 10) (-m.selected) ((m.items.length : Int) - 1 - m.selected) else v2
  let v4 := if key = KEY_NPAGE then
    clamp (v3 + 10) (-m.selected) ((m.items.length : Int) - 1 - m.selected) else v3
  let v5 := if key = KEY_HOME then -m.selected else v4
  if key = KEY_END then (m.items.length : Int) - 1 - m.selected else v5

/-- `MenuList.handle_input` (components.py lines 226-275).  Returns the new
menu state and, when a callback is returned to the caller, the index into
`self.functions` of that callback (`none` for no action).  In the source the
escape check sits after the (side-effect-free) `vinput` computation and
returns before the selection is updated; hoisting the test above the pure
`menuVinput` computation is behaviour-preserving. -/
def menuHandleInput (height : Int) (m : MenuList) (key : Int) : MenuList × Option Nat :=
  if key = KEY_ESC ∧ "Back" ∈ m.items then
    (m, some (m.items.indexOf "Back"))
  else
    let sel2 := menuWrap (m.selected + menuVinput m key) 0 ((m.items.length : Int) - 1)
    let os := menuScroll height m.menuTitleHeight m.offset sel2
    let m' := { m with offset := os.1, selected := os.2 }
    if key = KEY_ENTER ∨ key = 10 ∨ key = 13 then (m', some os.2.toNat)
    else (m', none)

/-- Folding a sequence of keys through `MenuList.handle_input`. -/
def menuRun (height : Int) (m : MenuList) (keys : List Int) : MenuList :=
  keys.foldl (fun s k => (menuHandleInput height s k).1) m

/-- The scroll invariant of the spec:
`scrollOffset <= selectedIndex < scrollOffset + viewportHeight` with
`viewportHeight` the available rows minus the title block height. -/
def scrollInv (height : Int) (m : MenuList) : Prop :=
  m.offset ≤ m.selected ∧ m.selected < m.offset + (height - m.menuTitleHeight)

instance (height : Int) (m : MenuList) : Decidable (scrollInv height m) :=
  inferInstanceAs (Decidable (And _ _))

/-! ## components.py: Container focus cycling -/

/-- The component state the Container focus model reads and writes: the
`selectable` and `selected` flags of `Component` (components.py lines 9-13).
No widget's own `handle_input` reacts to the down-arrow key (Combobox reacts
only to left/right, Button only to enter, TextInput only to escape,
backspace, enter and codes below 256), so forwarding the key to the selected
widget leaves these flags and all widget-internal state unchanged. -/
structure Comp where
  selectable : Bool
  selected : Bool
  deriving DecidableEq, Repr

/-- The `while` loop of `Container.handle_input` (components.py line 59) for
downward movement (`v_movement` starts at 1 and grows by 1): the first
`m ≥ 1` such that the component at `(i + m) % len` is selectable.  When no
component is selectable the source loop would not terminate; that case is
mapped to `i` and is unreachable under the claim's hypotheses. -/
def nextSelIdx (sel : List Bool) (i : Nat) : Nat :=
  match (List.range' 1 sel.length).find? (fun m => sel.getD ((i + m) % sel.length) false) with
  | some m => (i + m) % sel.length
  | none => i

/-- `Container.handle_input` (components.py lines 44-69) on the down-arrow
key: find the first selected component, deselect it, select the next
selectable component scanning forward with wraparound (`on_select` and
`on_deselect` are no-ops for every widget), and forward the key to the newly
selected component (a no-op for the down-arrow key, see `Comp`). -/
def containerDown (cs : List Comp) : List Comp :=
  match cs.findIdx? (·.selected) with
  | none => cs
  | some i =>
    let cs₁ :=
      match cs[i]? with
      | some c => cs.set i ⟨c.selectable, false⟩
      | none => cs
    let j := nextSelIdx (cs.map (·.selectable)) i
    match cs₁[j]? with
    | some c => cs₁.set j ⟨c.selectable, true⟩
    | none => cs₁

/-- The positions of the selectable components. -/
def selPositions (sel : List Bool) : List Nat :=
  (List.range sel.length).filter (fun j => sel.getD j false)

/-- The component list whose selectable flags are `sel`, numbered from
`start`, with exactly the component numbered `p` selected. -/
def stateFrom (sel : List Bool) (start p : Nat) : List Comp :=
  match sel with
  | [] => []
  | b :: bs => ⟨b, start == p⟩ :: stateFrom bs (start + 1) p

/-- The component list whose selectable flags are `sel` with exactly the
component at position `p` selected. -/
def stateAt (sel : List Bool) (p : Nat) : List Comp :=
  stateFrom sel 0 p

/-! ## Helper lemmas -/

theorem activity_eta (a : Activity) : (⟨a.choice, a.priority⟩ : Activity) = a := rfl

theorem processPlanLines_found_cumulative (p : List String) (found remaining : List String) :
    processPlanLines p found remaining =
      (found ++ (processPlanLines p [] remaining).1, (processPlanLines p [] remaining).2) := by
  induction p generalizing found remaining with
  | nil => simp [processPlanLines]
  | cons e es ih =>
    by_cases he : e ∈ remaining
    · simp only [processPlanLines, if_pos he, List.nil_append]
      rw [ih (found ++ [e]), ih [e]]
      simp
    · simp only [processPlanLines, if_neg he]
      exact ih found remaining

theorem bumpNotFound_eq_map (found : List String) (acts : List Activity) :
    bumpNotFound found acts =
      acts.map (fun a => ⟨a.choice, a.priority + if a.choice ∈ found then 0 else 1⟩) := by
  unfold bumpNotFound
  apply List.map_congr_left
  intro a _
  by_cases h : a.choice ∈ found <;> simp [h]

theorem adjustLoop_eq_map (ps : List (List String)) (found remaining : List String)
    (acts : List Activity) :
    adjustLoop ps found remaining acts =
      acts.map (fun a => ⟨a.choice, a.priority + roundsNotFound ps found remaining a.choice⟩) := by
  induction ps generalizing found remaining acts with
  | nil =>
    simp only [adjustLoop, roundsNotFound, Int.add_zero]
    have h : acts.map (fun a => (⟨a.choice, a.priority⟩ : Activity)) = acts.map id :=
      List.map_congr_left (fun a _ => activity_eta a)
    rw [h, List.map_id]
  | cons p ps ih =>
    simp only [adjustLoop, roundsNotFound]
    by_cases h2 : (processPlanLines p found remaining).2 = []
    · simp only [if_pos h2, bumpNotFound_eq_map]
      apply List.map_congr_left
      intro a _
      simp
    · simp only [if_neg h2, ih, bumpNotFound_eq_map, List.map_map]
      apply List.map_congr_left
      intro a _
      simp [Function.comp, Int.add_assoc]

theorem roundsNotFound_of_found (ps : List (List String)) (found remaining : List String)
    (n : String) (h : n ∈ found) : roundsNotFound ps found remaining n = 0 := by
  induction ps generalizing found remaining with
  | nil => rfl
  | cons p ps ih =>
    have h1 : n ∈ (processPlanLines p found remaining).1 := by
      rw [processPlanLines_found_cumulative]
      exact List.mem_append_left _ h
    simp only [roundsNotFound, if_pos h1]
    by_cases h2 : (processPlanLines p found remaining).2 = []
    · simp [h2]
    · simp [h2, ih _ _ h1]

theorem buildPool_eq_flatten (acts : List Activity) :
    buildPool acts = (acts.map (fun a => List.replicate a.priority.toNat a.choice)).flatten := by
  suffices h : ∀ init : List String,
      acts.foldl (fun cs a => cs ++ List.replicate a.priority.toNat a.choice) init
        = init ++ (acts.map (fun a => List.replicate a.priority.toNat a.choice)).flatten by
    simpa using h []
  induction acts with
  | nil => simp
  | cons a as ih => intro init; simp [ih, List.foldl_cons]

theorem mem_buildPool (acts : List Activity) (n : String) :
    n ∈ buildPool acts ↔ ∃ a ∈ acts, a.choice = n ∧ 0 < a.priority := by
  rw [buildPool_eq_flatten]
  simp only [List.mem_flatten, List.mem_map]
  constructor
  · rintro ⟨l, ⟨a, ha, rfl⟩, hn⟩
    rw [List.mem_replicate] at hn
    exact ⟨a, ha, hn.2.symm, by omega⟩
  · rintro ⟨a, ha, hc, hp⟩
    refine ⟨List.replicate a.priority.toNat a.choice, ⟨a, ha, rfl⟩, ?_⟩
    rw [List.mem_replicate]
    exact ⟨by omega, hc.symm⟩

/-! ## C1: `on_regress` on forward vs backward transitions -/

/-- C1 counterexample: from a single-screen history, `advance_state` with a
freshly constructed screen (id 1) followed by `State.update` does invoke the
new screen's `on_regress` hook (the returned flag is `true`), because the
fresh screen pushed itself onto `state_history` at construction and is
therefore the top of the stack when `update` compares. -/
theorem c1_counterexample_forward_invokes_on_regress :
    advance_state ⟨[0], none, 1⟩ = ⟨[0, 1], some 1, 2⟩
    ∧ (navUpdate (advance_state ⟨[0], none, 1⟩)).2 = some (1, true) := by decide

/-- C1 amended: `State.update` invokes the returned screen's `on_regress`
hook iff the pending screen equals the top of `state_history`; this holds
both for a transition set by `regress_state` and for a forward transition set
by `advance_state` with a freshly constructed screen, so `on_regress` runs on
every resolved transition of either kind. -/
theorem c1_nav_on_regress_iff_top (s : NavSys) :
    ((navUpdate s).2 = s.nextState.map (fun st => (st, s.history.getLast? == some st)))
    ∧ ((navUpdate (advance_state s)).2 = some (s.fresh, true))
    ∧ (∀ t, s.history.dropLast.getLast? = some t →
        (navUpdate (regress_state s)).2 = some (t, true)) := by
  refine ⟨?_, ?_, ?_⟩
  · cases h : s.nextState <;> simp [navUpdate, h]
  · simp [navUpdate, advance_state, List.getLast?_concat]
  · intro t ht
    simp [navUpdate, regress_state, ht]

/-- C1 witness: a concrete regression (history `[0,1,2]`, popped to top `1`)
resolved by `update` invokes `on_regress`. -/
theorem c1_witness :
    (navUpdate (regress_state ⟨[0, 1, 2], none, 3⟩)).2 = some (1, true) :=
  (c1_nav_on_regress_iff_top ⟨[0, 1, 2], none, 3⟩).2.2 1 rfl

/-! ## C2: which activities are bumped in each round -/

/-- C2 counterexample: activities `A, B` (priority 1 each), plans (most
recent first) `[A]` then `[B]`.  In the second round `A` is absent from that
plan, so per the claim `A` should receive that round's increment; the source
instead checks the cumulative `found_activities` (which already holds `A`
from round one) and leaves `A` at priority 1, while the spec-modelled
per-round variant yields priority 2 for `A`. -/
theorem c2_counterexample_round_increment :
    adjust_priorities [⟨"A", 1⟩, ⟨"B", 1⟩] [["A"], ["B"]] = [⟨"A", 1⟩, ⟨"B", 2⟩]
    ∧ adjustPrioritiesSpec [⟨"A", 1⟩, ⟨"B", 1⟩] [["A"], ["B"]] = [⟨"A", 2⟩, ⟨"B", 2⟩]
    ∧ adjust_priorities [⟨"A", 1⟩, ⟨"B", 1⟩] [["A"], ["B"]]
        ≠ adjustPrioritiesSpec [⟨"A", 1⟩, ⟨"B", 1⟩] [["A"], ["B"]] := by decide

/-- C2 amended: in each scanned round the activities incremented by 1 are
exactly those whose name is not in the *cumulative* found list (the names
found in this plan's round and in all more recent plans' rounds): the final
priority of every activity is its initial priority plus the number of
executed rounds whose cumulative found list did not contain its name
(`roundsNotFound`); once a name is in the found list it receives no further
increments in any later round; and each round extends the previous found
list (`processPlanLines` returns `found ++ newly-found`). -/
theorem c2_adjust_priorities_cumulative (acts : List Activity) (plans : List (List String)) :
    (adjust_priorities acts plans =
      acts.map (fun a =>
        ⟨a.choice, a.priority + roundsNotFound plans [] (acts.map (·.choice)) a.choice⟩))
    ∧ (∀ ps found remaining n, n ∈ found → roundsNotFound ps found remaining n = 0)
    ∧ (∀ p found remaining, (processPlanLines p found remaining).1
        = found ++ (processPlanLines p [] remaining).1) := by
  refine ⟨adjustLoop_eq_map plans [] _ acts, ?_, ?_⟩
  · intro ps found remaining n h
    exact roundsNotFound_of_found ps found remaining n h
  · intro p found remaining
    rw [processPlanLines_found_cumulative]

/-- C2 witness: name `A` already in the cumulative found list receives no
increment from a later plan that does not contain it. -/
theorem c2_witness : roundsNotFound [["B"]] ["A"] ["B"] "A" = 0 :=
  (c2_adjust_priorities_cumulative [] []).2.1 [["B"]] ["A"] ["B"] "A" (by decide)

/-! ## C3: exclusion of zero-priority activities -/

/-- C3 counterexample: activity `A` with stored priority 0 and a past-plan
history `[["B"]]` that does not contain `A`:  `adjust_priorities` bumps `A`
to priority 1, so `A` does appear in the flat candidate pool and is drawn. -/
theorem c3_counterexample_zero_priority_drawn :
    (⟨"A", 0⟩ : Activity) ∈ ([⟨"A", 0⟩] : List Activity)
    ∧ "A" ∈ buildPool (adjust_priorities [⟨"A", 0⟩] [["B"]])
    ∧ get_random_activity [⟨"A", 0⟩] [["B"]] 0 = Except.ok "A" :=
  ⟨by decide, by decide, rfl⟩

/-- C3 amended: an activity name all of whose records have priority ≤ 0
*after* the history-based adjustment never appears in the flat candidate pool
and is never returned by the random draw (in particular, with an empty plan
history, a stored priority of 0 excludes the activity). -/
theorem c3_zero_adjusted_priority_excluded (acts : List Activity)
    (plans : List (List String)) (n : String)
    (h : ∀ a ∈ adjust_priorities acts plans, a.choice = n → a.priority ≤ 0) :
    n ∉ buildPool (adjust_priorities acts plans)
    ∧ ∀ k, get_random_activity acts plans k ≠ Except.ok n := by
  have hpool : n ∉ buildPool (adjust_priorities acts plans) := by
    rw [mem_buildPool]
    rintro ⟨a, ha, hc, hp⟩
    have := h a ha hc
    omega
  refine ⟨hpool, fun k => ?_⟩
  unfold get_random_activity random_choice
  cases hp : buildPool (adjust_priorities acts plans) with
  | nil => simp
  | cons x xs =>
    simp only [ne_eq, Except.ok.injEq]
    intro hok
    apply hpool
    rw [hp, ← hok]
    have hlt : k % (x :: xs).length < (x :: xs).length :=
      Nat.mod_lt _ (by simp)
    rw [List.getD_eq_getElem _ _ hlt]
    exact List.getElem_mem hlt

/-- C3 witness: with the empty plan history, stored priority 0 keeps `A` out
of the pool and out of every draw. -/
theorem c3_witness :
    "A" ∉ buildPool (adjust_priorities [⟨"A", 0⟩] [])
    ∧ ∀ k, get_random_activity [⟨"A", 0⟩] [] k ≠ Except.ok "A" :=
  c3_zero_adjusted_priority_excluded [⟨"A", 0⟩] [] "A" (by decide)

/-! ## C4: in-place mutation of the caller's activity records -/

/-- C4 counterexample: a caller's list holding a reference to the record
`⟨A, 1⟩` at address 0, with plan history `[["B"]]`: after
`adjust_priorities` the record on the heap reads `⟨A, 2⟩` — the priority
field of the caller's `Activity` record was mutated, not cloned. -/
theorem c4_counterexample_mutation :
    adjustPrioritiesHeap [⟨"A", 1⟩] [0] [["B"]] = [⟨"A", 2⟩]
    ∧ adjustPrioritiesHeap [⟨"A", 1⟩] [0] [["B"]] ≠ [⟨"A", 1⟩] := by decide

theorem bumpHeap_frame (addrs : List Nat) (found : List String) (heap : List Activity)
    (i : Nat) :
    (bumpHeap addrs found heap).length = heap.length
    ∧ (bumpHeap addrs found heap)[i]?.map (·.choice) = (heap[i]?.map (·.choice))
    ∧ (i ∉ addrs → (bumpHeap addrs found heap)[i]? = heap[i]?) := by
  induction addrs generalizing heap with
  | nil => exact ⟨rfl, rfl, fun _ => rfl⟩
  | cons a as ih =>
    have hstep : bumpHeap (a :: as) found heap = bumpHeap as found
        (match heap[a]? with
         | some c => if c.choice ∈ found then heap else heap.set a ⟨c.choice, c.priority + 1⟩
         | none => heap) := rfl
    rw [hstep]
    cases hga : heap[a]? with
    | none =>
      obtain ⟨h1, h2, h3⟩ := ih heap
      exact ⟨h1, h2, fun hi => h3 (fun h => hi (List.mem_cons_of_mem a h))⟩
    | some act =>
      have hred : (match (some act : Option Activity) with
          | some c => if c.choice ∈ found then heap else heap.set a ⟨c.choice, c.priority + 1⟩
          | none => heap)
          = if act.choice ∈ found then heap else heap.set a ⟨act.choice, act.priority + 1⟩ := rfl
      rw [hred]
      by_cases hc : act.choice ∈ found
      · rw [if_pos hc]
        obtain ⟨h1, h2, h3⟩ := ih heap
        exact ⟨h1, h2, fun hi => h3 (fun h => hi (List.mem_cons_of_mem a h))⟩
      · rw [if_neg hc]
        obtain ⟨ih1, ih2, ih3⟩ := ih (heap.set a ⟨act.choice, act.priority + 1⟩)
        refine ⟨by rw [ih1, List.length_set], ?_, ?_⟩
        · rw [ih2]
          by_cases hia : i = a
          · subst hia
            rw [List.getElem?_set_self', hga]
            rfl
          · rw [List.getElem?_set_ne (fun h => hia h.symm)]
        · intro hi
          have hia : i ≠ a := fun h => hi (h ▸ List.mem_cons_self a as)
          rw [ih3 (fun h => hi (List.mem_cons_of_mem a h)),
            List.getElem?_set_ne (fun h => hia h.symm)]

theorem adjustLoopHeap_frame (plans : List (List String)) (found remaining : List String)
    (addrs : List Nat) (heap : List Activity) (i : Nat) :
    (adjustLoopHeap plans found remaining addrs heap).length = heap.length
    ∧ (adjustLoopHeap plans found remaining addrs heap)[i]?.map (·.choice)
        = (heap[i]?.map (·.choice))
    ∧ (i ∉ addrs → (adjustLoopHeap plans found remaining addrs heap)[i]? = heap[i]?) := by
  induction plans generalizing found remaining heap with
  | nil => exact ⟨rfl, rfl, fun _ => rfl⟩
  | cons p ps ih =>
    simp only [adjustLoopHeap]
    by_cases h2 : (processPlanLines p found remaining).2 = []
    · simp only [if_pos h2]
      exact bumpHeap_frame addrs _ heap i
    · simp only [if_neg h2]
      obtain ⟨b1, b2, b3⟩ := bumpHeap_frame addrs (processPlanLines p found remaining).1 heap i
      obtain ⟨i1, i2, i3⟩ := ih (processPlanLines p found remaining).1
        (processPlanLines p found remaining).2
        (bumpHeap addrs (processPlanLines p found remaining).1 heap)
      refine ⟨by rw [i1, b1], by rw [i2, b2], fun hi => by rw [i3 hi, b3 hi]⟩

/-- C4 amended: `adjust_priorities` does *not* operate on a clone — it
mutates the priority fields of the `Activity` records referenced by the
caller's list in place.  What the call does preserve: the heap size, every
record's name (`choice`), and every record not referenced by the caller's
list. -/
theorem c4_adjust_priorities_frame (heap : List Activity) (addrs : List Nat)
    (plans : List (List String)) :
    (adjustPrioritiesHeap heap addrs plans).length = heap.length
    ∧ (∀ i : Nat, (adjustPrioritiesHeap heap addrs plans)[i]?.map (·.choice)
        = (heap[i]?.map (·.choice)))
    ∧ (∀ i : Nat, i ∉ addrs → (adjustPrioritiesHeap heap addrs plans)[i]? = heap[i]?) := by
  refine ⟨(adjustLoopHeap_frame plans [] _ addrs heap 0).1, ?_, ?_⟩
  · intro i
    exact (adjustLoopHeap_frame plans [] _ addrs heap i).2.1
  · intro i hi
    exact (adjustLoopHeap_frame plans [] _ addrs heap i).2.2 hi

/-- C4 witness: a record at address 1 outside the caller's list `[0]` is
untouched while the referenced record is mutated. -/
theorem c4_witness :
    (adjustPrioritiesHeap [⟨"A", 1⟩, ⟨"B", 5⟩] [0] [["C"]])[1]? = some ⟨"B", 5⟩ :=
  (c4_adjust_priorities_frame [⟨"A", 1⟩, ⟨"B", 5⟩] [0] [["C"]]).2.2 1 (by decide)

/-! ## C5: empty weighted pool -/

/-- C5: when the flat weighted pool is empty (every adjusted priority ≤ 0),
the draw of `get_random_activity` raises (`random.choice` on an empty
sequence), modelled as `Except.error` — a reportable error, not a silent
pick. -/
theorem c5_empty_pool_error (acts : List Activity) (plans : List (List String)) (k : Nat)
    (h : buildPool (adjust_priorities acts plans) = []) :
    get_random_activity acts plans k = Except.error "Cannot choose from an empty sequence" := by
  unfold get_random_activity
  rw [h]
  rfl

/-- C5 witness: a single zero-priority activity with no plan history gives an
empty pool and the draw errors. -/
theorem c5_witness :
    get_random_activity [⟨"A", 0⟩] [] 7 = Except.error "Cannot choose from an empty sequence" :=
  c5_empty_pool_error [⟨"A", 0⟩] [] 7 rfl

/-! ## C10: Combobox clamping -/

/-- C10: `Combobox.handle_input` keeps `0 ≤ index < len(items)`; a left key
at index 0 and a right key at the last index are no-ops (the selection clamps
at the ends, it never wraps), and every key other than left/right leaves the
combobox unchanged. -/
theorem c10_combobox_clamps (cb : Combobox) (key : Int)
    (hne : cb.items ≠ []) (hlo : 0 ≤ cb.index) (hhi : cb.index < (cb.items.length : Int)) :
    (0 ≤ (comboboxHandleInput cb key).index
      ∧ (comboboxHandleInput cb key).index < (cb.items.length : Int))
    ∧ (key = KEY_LEFT → cb.index = 0 → comboboxHandleInput cb key = cb)
    ∧ (key = KEY_RIGHT → cb.index = (cb.items.length : Int) - 1 →
        comboboxHandleInput cb key = cb)
    ∧ (key ≠ KEY_LEFT → key ≠ KEY_RIGHT → comboboxHandleInput cb key = cb) := by
  have hlen : 0 < (cb.items.length : Int) := by
    have := List.length_pos.mpr hne
    omega
  refine ⟨?_, ?_, ?_, ?_⟩
  · unfold comboboxHandleInput
    split_ifs <;> first | omega | (dsimp only; omega)
  · intro hk h0
    have hkl : key ≠ -1 := by rw [hk]; decide
    unfold comboboxHandleInput
    rw [if_neg hkl, if_pos hk]
    have : max 0 (cb.index - 1) = cb.index := by omega
    rw [this]
  · intro hk hl
    have hkl : key ≠ -1 := by rw [hk]; decide
    have hkr : key ≠ KEY_LEFT := by rw [hk]; decide
    unfold comboboxHandleInput
    rw [if_neg hkl, if_neg hkr, if_pos hk]
    have : min ((cb.items.length : Int) - 1) (cb.index + 1) = cb.index := by omega
    rw [this]
  · intro hk1 hk2
    unfold comboboxHandleInput
    split_ifs <;> rfl

/-- C10 witness: a left key at index 0 of a two-item combobox is a no-op. -/
theorem c10_witness :
    comboboxHandleInput ⟨["a", "b"], 0⟩ KEY_LEFT = ⟨["a", "b"], 0⟩ :=
  (c10_combobox_clamps ⟨["a", "b"], 0⟩ KEY_LEFT (by decide) (by decide) (by decide)).2.1
    rfl rfl

/-! ## C6 and C7: MenuList navigation -/

theorem menuVinput_up (m : MenuList) : menuVinput m KEY_UP = -1 := rfl

theorem menuVinput_down (m : MenuList) : menuVinput m KEY_DOWN = 1 := rfl

theorem menuVinput_ppage (m : MenuList) :
    menuVinput m KEY_PPAGE = clamp (-10) (-m.selected) ((m.items.length : Int) - 1 - m.selected) :=
  rfl

theorem menuVinput_npage (m : MenuList) :
    menuVinput m KEY_NPAGE = clamp 10 (-m.selected) ((m.items.length : Int) - 1 - m.selected) :=
  rfl

theorem menuScroll_snd (height titleH scroll selection : Int) :
    (menuScroll height titleH scroll selection).2 = selection := by
  unfold menuScroll
  split_ifs <;> rfl

theorem menuScroll_establishes (height titleH scroll selection : Int)
    (hvp : titleH + 1 ≤ height) :
    (menuScroll height titleH scroll selection).1 ≤ (menuScroll height titleH scroll selection).2
    ∧ (menuScroll height titleH scroll selection).2
        < (menuScroll height titleH scroll selection).1 + (height - titleH) := by
  unfold menuScroll
  split_ifs <;> dsimp only <;> omega

theorem menuHandleInput_esc (height : Int) (m : MenuList) (key : Int)
    (h : key = KEY_ESC ∧ "Back" ∈ m.items) :
    (menuHandleInput height m key).1 = m := by
  unfold menuHandleInput
  rw [if_pos h]

theorem menuHandleInput_of_ne (height : Int) (m : MenuList) (key : Int)
    (h : ¬(key = KEY_ESC ∧ "Back" ∈ m.items)) :
    (menuHandleInput height m key).1 =
      { m with
        offset := (menuScroll height m.menuTitleHeight m.offset
          (menuWrap (m.selected + menuVinput m key) 0 ((m.items.length : Int) - 1))).1,
        selected := (menuScroll height m.menuTitleHeight m.offset
          (menuWrap (m.selected + menuVinput m key) 0 ((m.items.length : Int) - 1))).2 } := by
  unfold menuHandleInput
  rw [if_neg h]
  dsimp only
  split_ifs <;> rfl

theorem menuHandleInput_fields (height : Int) (m : MenuList) (key : Int) :
    ((menuHandleInput height m key).1).items = m.items
    ∧ ((menuHandleInput height m key).1).menuTitleHeight = m.menuTitleHeight := by
  by_cases h : key = KEY_ESC ∧ "Back" ∈ m.items
  · rw [menuHandleInput_esc height m key h]
    exact ⟨rfl, rfl⟩
  · rw [menuHandleInput_of_ne height m key h]
    exact ⟨rfl, rfl⟩

theorem scrollInv_menuHandleInput (height : Int) (m : MenuList) (key : Int)
    (hvp : m.menuTitleHeight + 1 ≤ height) (hinv : scrollInv height m) :
    scrollInv height (menuHandleInput height m key).1 := by
  by_cases h : key = KEY_ESC ∧ "Back" ∈ m.items
  · rw [menuHandleInput_esc height m key h]
    exact hinv
  · rw [menuHandleInput_of_ne height m key h]
    unfold scrollInv
    dsimp only
    exact menuScroll_establishes height m.menuTitleHeight m.offset
      (menuWrap (m.selected + menuVinput m key) 0 ((m.items.length : Int) - 1)) hvp

theorem scrollInv_menuRun (height : Int) (m : MenuList) (keys : List Int)
    (hvp : m.menuTitleHeight + 1 ≤ height) (hinv : scrollInv height m) :
    scrollInv height (menuRun height m keys) := by
  induction keys generalizing m with
  | nil => exact hinv
  | cons k ks ih =>
    exact ih (menuHandleInput height m k).1
      (by rw [(menuHandleInput_fields height m k).2]; exact hvp)
      (scrollInv_menuHandleInput height m k hvp hinv)

/-- C6: `MenuList.scroll` satisfies the two recomputation clauses of the spec
with `viewportHeight = height - menuTitleHeight`, and after any sequence of
keys handled by `MenuList.handle_input` the scroll invariant
`scrollOffset ≤ selectedIndex < scrollOffset + viewportHeight` holds
(assuming a positive viewport and a state initially satisfying it, as the
initial `selected = offset = 0` does). -/
theorem c6_scroll_clauses_and_invariant (height : Int) (m : MenuList) (keys : List Int)
    (hvp : m.menuTitleHeight + 1 ≤ height) (hinv : scrollInv height m) :
    (∀ scroll selection : Int,
      (selection < scroll →
        (menuScroll height m.menuTitleHeight scroll selection).1 = selection)
      ∧ (scroll + (height - m.menuTitleHeight) ≤ selection →
        (menuScroll height m.menuTitleHeight scroll selection).1
          = selection - (height - m.menuTitleHeight) + 1))
    ∧ scrollInv height (menuRun height m keys) := by
  refine ⟨fun scroll selection => ⟨?_, ?_⟩, scrollInv_menuRun height m keys hvp hinv⟩
  · intro h
    unfold menuScroll
    rw [if_pos h]
  · intro h
    unfold menuScroll
    rw [if_neg (by omega), if_pos (by omega)]
    dsimp only
    omega

/-- C6 witness: a five-item menu in a 5-row terminal (viewport 3) keeps the
invariant across a concrete navigation sequence. -/
theorem c6_witness :
    scrollInv 5 (menuRun 5 ⟨["a", "b", "c", "d", "e"], 0, 0, 2⟩
      [KEY_DOWN, KEY_DOWN, KEY_DOWN, KEY_END, KEY_UP]) :=
  (c6_scroll_clauses_and_invariant 5 ⟨["a", "b", "c", "d", "e"], 0, 0, 2⟩
    [KEY_DOWN, KEY_DOWN, KEY_DOWN, KEY_END, KEY_UP] (by decide) (by decide)).2

/-- C7: `MenuList.handle_input` keeps `0 ≤ selected < len(items)` for a
non-empty item list; up at index 0 wraps to the last index, down at the last
index wraps to 0, and page up/down move by 10 clamped to `[0, len(items)-1]`
(never wrapping). -/
theorem c7_selected_in_range (height : Int) (m : MenuList) (key : Int)
    (hne : m.items ≠ []) (hlo : 0 ≤ m.selected) (hhi : m.selected < (m.items.length : Int)) :
    (0 ≤ ((menuHandleInput height m key).1).selected
      ∧ ((menuHandleInput height m key).1).selected < (m.items.length : Int))
    ∧ (key = KEY_UP → m.selected = 0 →
        ((menuHandleInput height m key).1).selected = (m.items.length : Int) - 1)
    ∧ (key = KEY_DOWN → m.selected = (m.items.length : Int) - 1 →
        ((menuHandleInput height m key).1).selected = 0)
    ∧ (key = KEY_PPAGE →
        ((menuHandleInput height m key).1).selected = max 0 (m.selected - 10))
    ∧ (key = KEY_NPAGE →
        ((menuHandleInput height m key).1).selected
          = min ((m.items.length : Int) - 1) (m.selected + 10)) := by
  have hlen : 0 < (m.items.length : Int) := by
    have := List.length_pos.mpr hne
    omega
  refine ⟨?_, ?_, ?_, ?_, ?_⟩
  · by_cases h : key = KEY_ESC ∧ "Back" ∈ m.items
    · rw [menuHandleInput_esc height m key h]
      exact ⟨hlo, hhi⟩
    · rw [menuHandleInput_of_ne height m key h]
      dsimp only
      rw [menuScroll_snd]
      unfold menuWrap
      split_ifs <;> omega
  · intro hk h0
    subst hk
    rw [menuHandleInput_of_ne height m KEY_UP (by rintro ⟨h1, -⟩; exact absurd h1 (by decide))]
    dsimp only
    rw [menuScroll_snd, menuVinput_up, h0]
    unfold menuWrap
    split_ifs <;> omega
  · intro hk hl
    subst hk
    rw [menuHandleInput_of_ne height m KEY_DOWN (by rintro ⟨h1, -⟩; exact absurd h1 (by decide))]
    dsimp only
    rw [menuScroll_snd, menuVinput_down, hl]
    unfold menuWrap
    split_ifs <;> omega
  · intro hk
    subst hk
    rw [menuHandleInput_of_ne height m KEY_PPAGE (by rintro ⟨h1, -⟩; exact absurd h1 (by decide))]
    dsimp only
    rw [menuScroll_snd, menuVinput_ppage]
    unfold menuWrap clamp
    split_ifs <;> omega
  · intro hk
    subst hk
    rw [menuHandleInput_of_ne height m KEY_NPAGE (by rintro ⟨h1, -⟩; exact absurd h1 (by decide))]
    dsimp only
    rw [menuScroll_snd, menuVinput_npage]
    unfold menuWrap clamp
    split_ifs <;> omega

/-- C7 witness: pressing up at index 0 of a two-item menu wraps to the last
index. -/
theorem c7_witness :
    ((menuHandleInput 10 ⟨["a", "b"], 0, 0, 2⟩ KEY_UP).1).selected
      = ((["a", "b"].length : Int) - 1) :=
  (c7_selected_in_range 10 ⟨["a", "b"], 0, 0, 2⟩ KEY_UP (by decide) (by decide)
    (by decide)).2.1 rfl rfl

/-! ## C9: activity file round trip -/

theorem splitOnChar_ne_nil (sep : Char) (l : List Char) : splitOnChar sep l ≠ [] := by
  cases l with
  | nil => simp [splitOnChar]
  | cons c cs =>
    unfold splitOnChar
    cases h : splitOnChar sep cs with
    | nil => simp
    | cons r rs => split_ifs <;> simp

theorem splitOnChar_not_mem (sep : Char) (l : List Char) (h : sep ∉ l) :
    splitOnChar sep l = [l] := by
  induction l with
  | nil => rfl
  | cons c cs ih =>
    have hc : c ≠ sep := fun hh => h (hh ▸ List.mem_cons_self c cs)
    have hcs : sep ∉ cs := fun hh => h (List.mem_cons_of_mem c hh)
    unfold splitOnChar
    rw [ih hcs]
    simp [hc]

theorem splitOnChar_cons (sep c : Char) (cs : List Char) :
    splitOnChar sep (c :: cs) =
      match splitOnChar sep cs with
      | [] => [[]]
      | r :: rs => if c = sep then [] :: r :: rs else (c :: r) :: rs := rfl

theorem splitOnChar_append_left (sep : Char) (a b : List Char) (ha : sep ∉ a) :
    splitOnChar sep (a ++ sep :: b) = a :: splitOnChar sep b := by
  induction a with
  | nil =>
    rw [List.nil_append, splitOnChar_cons]
    cases h : splitOnChar sep b with
    | nil => exact absurd h (splitOnChar_ne_nil sep b)
    | cons r rs => simp
  | cons c cs ih =>
    have hc : c ≠ sep := fun hh => ha (hh ▸ List.mem_cons_self c cs)
    have hcs : sep ∉ cs := fun hh => ha (List.mem_cons_of_mem c hh)
    rw [List.cons_append, splitOnChar_cons, ih hcs]
    simp [hc]

theorem splitOnChar_append_sep (sep : Char) (a b : List Char) (hb : sep ∉ b) :
    splitOnChar sep (a ++ sep :: b) = splitOnChar sep a ++ [b] := by
  induction a with
  | nil =>
    rw [List.nil_append]
    unfold splitOnChar
    rw [splitOnChar_not_mem sep b hb]
    simp [splitOnChar]
  | cons c cs ih =>
    rw [List.cons_append]
    unfold splitOnChar
    rw [ih]
    cases h : splitOnChar sep cs with
    | nil => exact absurd h (splitOnChar_ne_nil sep cs)
    | cons r rs => by_cases hc : c = sep <;> simp [hc]

theorem joinWithChar_cons (sep : Char) (x : List Char) (xs : List (List Char)) :
    joinWithChar sep (x :: xs)
      = x ++ (match xs with | [] => ([] : List Char) | _ :: _ => sep :: joinWithChar sep xs) := by
  cases xs <;> simp [joinWithChar]

theorem joinWithChar_splitOnChar (sep : Char) (l : List Char) :
    joinWithChar sep (splitOnChar sep l) = l := by
  induction l with
  | nil => rfl
  | cons c cs ih =>
    rw [splitOnChar_cons]
    cases h : splitOnChar sep cs with
    | nil => exact absurd h (splitOnChar_ne_nil sep cs)
    | cons r rs =>
      rw [h] at ih
      rw [joinWithChar_cons] at ih
      dsimp only
      by_cases hc : c = sep
      · rw [if_pos hc, joinWithChar_cons, joinWithChar_cons]
        subst hc
        simpa using ih
      · rw [if_neg hc, joinWithChar_cons, ← ih]
        simp

theorem toNat_digitChar (d : Nat) (h : d < 10) : (digitChar d).toNat = 48 + d := by
  interval_cases d <;> decide

theorem isDigitChar_digitChar (d : Nat) (h : d < 10) : isDigitChar (digitChar d) = true := by
  interval_cases d <;> decide

theorem natToDigitsAux_acc (fuel n : Nat) (acc : List Char) :
    natToDigitsAux fuel n acc = natToDigitsAux fuel n [] ++ acc := by
  induction fuel generalizing n acc with
  | zero => rfl
  | succ fuel ih =>
    unfold natToDigitsAux
    by_cases h : n < 10
    · rw [if_pos h, if_pos h]
      rfl
    · rw [if_neg h, if_neg h, ih (n / 10) (digitChar (n % 10) :: acc),
        ih (n / 10) [digitChar (n % 10)], List.append_assoc]
      rfl

theorem natToDigitsAux_ne_nil (fuel n : Nat) : natToDigitsAux fuel n [] ≠ [] := by
  cases fuel with
  | zero => simp [natToDigitsAux]
  | succ fuel =>
    unfold natToDigitsAux
    by_cases h : n < 10
    · simp [h]
    · rw [if_neg h, natToDigitsAux_acc]
      simp

theorem natToDigitsAux_all_digits (fuel n : Nat) (h : n ≤ fuel) :
    ∀ c ∈ natToDigitsAux fuel n [], isDigitChar c = true := by
  induction fuel generalizing n with
  | zero =>
    have h0 : n = 0 := by omega
    subst h0
    intro c hc
    simp [natToDigitsAux] at hc
    subst hc
    decide
  | succ fuel ih =>
    unfold natToDigitsAux
    by_cases h10 : n < 10
    · rw [if_pos h10]
      intro c hc
      simp at hc
      subst hc
      exact isDigitChar_digitChar n h10
    · rw [if_neg h10, natToDigitsAux_acc]
      intro c hc
      rcases List.mem_append.mp hc with hc | hc
      · exact ih (n / 10) (by omega) c hc
      · simp at hc
        subst hc
        exact isDigitChar_digitChar (n % 10) (Nat.mod_lt n (by omega))

theorem digitsVal_append_digit (l : List Char) (c : Char) :
    digitsVal (l ++ [c]) = digitsVal l * 10 + (c.toNat - 48) := by
  unfold digitsVal
  rw [List.foldl_append]
  rfl

theorem digitsVal_natToDigitsAux (fuel n : Nat) (h : n ≤ fuel) :
    digitsVal (natToDigitsAux fuel n []) = n := by
  induction fuel generalizing n with
  | zero =>
    have h0 : n = 0 := by omega
    subst h0
    decide
  | succ fuel ih =>
    unfold natToDigitsAux
    by_cases h10 : n < 10
    · rw [if_pos h10]
      show digitsVal [digitChar n] = n
      unfold digitsVal
      simp [toNat_digitChar n h10]
    · rw [if_neg h10, natToDigitsAux_acc, digitsVal_append_digit, ih (n / 10) (by omega),
        toNat_digitChar (n % 10) (Nat.mod_lt n (by omega))]
      omega

theorem pyIntOfDigits_natToDigits (n : Nat) : pyIntOfDigits (natToDigits n) = some n := by
  unfold pyIntOfDigits natToDigits
  rw [if_pos ?cond]
  case cond =>
    rw [Bool.and_eq_true]
    refine ⟨?_, ?_⟩
    · simpa using natToDigitsAux_ne_nil n n
    · rw [List.all_eq_true]
      intro c hc
      exact natToDigitsAux_all_digits n n le_rfl c hc
  rw [digitsVal_natToDigitsAux n n le_rfl]

theorem pyIsSpace_of_digit (c : Char) (h : isDigitChar c = true) : pyIsSpace c = false := by
  by_contra hc
  rw [Bool.not_eq_false] at hc
  unfold pyIsSpace at hc
  unfold isDigitChar at h
  simp only [Bool.or_eq_true, Bool.and_eq_true, decide_eq_true_eq] at hc h
  omega

theorem isDigit_ne_minus (c : Char) (h : isDigitChar c = true) : c ≠ '-' := by
  rintro rfl
  revert h
  decide

theorem isDigit_ne_plus (c : Char) (h : isDigitChar c = true) : c ≠ '+' := by
  rintro rfl
  revert h
  decide

theorem isDigit_ne_comma (c : Char) (h : isDigitChar c = true) : c ≠ ',' := by
  rintro rfl
  revert h
  decide

theorem pyStrOfInt_no_space (p : Int) : ∀ c ∈ pyStrOfInt p, pyIsSpace c = false := by
  unfold pyStrOfInt
  split_ifs with h
  · intro c hc
    rcases List.mem_cons.mp hc with rfl | hc
    · decide
    · exact pyIsSpace_of_digit c (natToDigitsAux_all_digits _ _ le_rfl c hc)
  · intro c hc
    exact pyIsSpace_of_digit c (natToDigitsAux_all_digits _ _ le_rfl c hc)

theorem pyStrOfInt_no_comma (p : Int) : ',' ∉ pyStrOfInt p := by
  intro hc
  unfold pyStrOfInt at hc
  split_ifs at hc with h
  · rcases List.mem_cons.mp hc with h1 | h1
    · exact absurd h1 (by decide)
    · exact isDigit_ne_comma ',' (natToDigitsAux_all_digits _ _ le_rfl ',' h1) rfl
  · exact isDigit_ne_comma ',' (natToDigitsAux_all_digits _ _ le_rfl ',' hc) rfl

theorem dropWhile_eq_self_of_head (p : Char → Bool) (l : List Char)
    (h : ∀ c, l.head? = some c → p c = false) : l.dropWhile p = l := by
  cases l with
  | nil => rfl
  | cons c cs =>
    rw [List.dropWhile_cons, h c rfl]
    simp

theorem stripChars_eq_self (l : List Char)
    (h1 : ∀ c, l.head? = some c → pyIsSpace c = false)
    (h2 : ∀ c, l.getLast? = some c → pyIsSpace c = false) :
    stripChars l = l := by
  unfold stripChars
  rw [dropWhile_eq_self_of_head pyIsSpace l h1]
  rw [dropWhile_eq_self_of_head pyIsSpace l.reverse
    (fun c hc => h2 c (by rwa [List.head?_reverse] at hc))]
  exact List.reverse_reverse l

theorem stripChars_of_no_space (l : List Char) (h : ∀ c ∈ l, pyIsSpace c = false) :
    stripChars l = l :=
  stripChars_eq_self l (fun c hc => h c (List.mem_of_mem_head? (by rw [hc]; rfl)))
    (fun c hc => h c (List.mem_of_getLast?_eq_some hc))

theorem pyStrOfInt_ne_nil (p : Int) : pyStrOfInt p ≠ [] := by
  unfold pyStrOfInt
  split_ifs
  · simp
  · exact natToDigitsAux_ne_nil _ _

theorem pyInt_pyStrOfInt (p : Int) : pyInt (pyStrOfInt p) = some p := by
  unfold pyInt
  rw [stripChars_of_no_space _ (pyStrOfInt_no_space p)]
  dsimp only
  by_cases h : p < 0
  · have hstr : pyStrOfInt p = '-' :: natToDigits p.natAbs := by
      unfold pyStrOfInt
      rw [if_pos h]
    rw [hstr, List.head?_cons, if_pos rfl, List.tail_cons, pyIntOfDigits_natToDigits]
    simp only [Option.map_some']
    congr 1
    rw [Int.ofNat_eq_natCast]
    omega
  · have hstr : pyStrOfInt p = natToDigits p.toNat := by
      unfold pyStrOfInt
      rw [if_neg h]
    obtain ⟨c, cs, hcons⟩ : ∃ c cs, natToDigits p.toNat = c :: cs := by
      cases hh : natToDigits p.toNat with
      | nil => exact absurd hh (natToDigitsAux_ne_nil _ _)
      | cons c cs => exact ⟨c, cs, rfl⟩
    have hdig : isDigitChar c = true := by
      apply natToDigitsAux_all_digits p.toNat p.toNat le_rfl c
      show c ∈ natToDigits p.toNat
      rw [hcons]
      exact List.mem_cons_self c cs
    rw [hstr, hcons, List.head?_cons,
      if_neg (fun hh => isDigit_ne_minus c hdig (by injection hh)),
      if_neg (fun hh => isDigit_ne_plus c hdig (by injection hh)),
      ← hcons, pyIntOfDigits_natToDigits]
    simp only [Option.map_some']
    congr 1
    rw [Int.ofNat_eq_natCast]
    omega

theorem lineChars_no_ws_char (a : Activity) (c : Char) (hws : pyIsSpace c = true)
    (hcomma : c ≠ ',') (h : c ∉ a.choice.data) : c ∉ lineChars a := by
  unfold lineChars
  intro hmem
  rcases List.mem_append.mp hmem with hm | hm
  · exact h hm
  · rcases List.mem_cons.mp hm with h1 | h1
    · exact hcomma h1
    · rw [pyStrOfInt_no_space a.priority c h1] at hws
      exact Bool.noConfusion hws

theorem lineChars_no_newline (a : Activity) (h : '\n' ∉ a.choice.data) :
    '\n' ∉ lineChars a :=
  lineChars_no_ws_char a '\n' (by decide) (by decide) h

theorem normalizeNewlines_single (c : Char) :
    normalizeNewlines [c] = if c = '\r' then ['\n'] else [c] := rfl

theorem normalizeNewlines_cons_cons (c d : Char) (rest : List Char) :
    normalizeNewlines (c :: d :: rest) =
      if c = '\r' then
        if d = '\n' then '\n' :: normalizeNewlines rest
        else '\n' :: normalizeNewlines (d :: rest)
      else c :: normalizeNewlines (d :: rest) := rfl

theorem normalizeNewlines_no_cr (l : List Char) (h : '\r' ∉ l) :
    normalizeNewlines l = l := by
  induction l with
  | nil => rfl
  | cons c rest ih =>
    have hc : c ≠ '\r' := fun hh => h (hh ▸ List.mem_cons_self c rest)
    have hrest : '\r' ∉ rest := fun hh => h (List.mem_cons_of_mem c hh)
    cases rest with
    | nil => rw [normalizeNewlines_single, if_neg hc]
    | cons d rest' => rw [normalizeNewlines_cons_cons, if_neg hc, ih hrest]

theorem cr_not_mem_write (acts : List Activity) (h : ∀ a ∈ acts, '\r' ∉ a.choice.data) :
    '\r' ∉ write_activities acts := by
  unfold write_activities
  intro hmem
  rw [List.mem_flatten] at hmem
  obtain ⟨l, hl, hcl⟩ := hmem
  rw [List.mem_map] at hl
  obtain ⟨a, ha, rfl⟩ := hl
  rcases List.mem_append.mp hcl with hm | hm
  · exact lineChars_no_ws_char a '\r' (by decide) (by decide) (h a ha) hm
  · rcases List.mem_cons.mp hm with h1 | h1
    · exact absurd h1 (by decide)
    · simp at h1

theorem splitNl_write (acts : List Activity) (h : ∀ a ∈ acts, '\n' ∉ a.choice.data) :
    splitOnChar '\n' (write_activities acts) = acts.map lineChars ++ [[]] := by
  induction acts with
  | nil => rfl
  | cons a as ih =>
    have hw : write_activities (a :: as) = lineChars a ++ '\n' :: write_activities as := by
      unfold write_activities
      simp
    rw [hw,
      splitOnChar_append_left '\n' _ _ (lineChars_no_newline a (h a (List.mem_cons_self a as))),
      ih (fun x hx => h x (List.mem_cons_of_mem a hx))]
    rfl

theorem fileLines_write (acts : List Activity) (h : ∀ a ∈ acts, '\n' ∉ a.choice.data) :
    fileLines (write_activities acts) = acts.map lineChars := by
  unfold fileLines
  rw [splitNl_write acts h, if_pos (List.getLast?_concat _), List.dropLast_concat]

theorem parseActivityLine_lineChars (a : Activity) (hl : noLeadingSpace a.choice = true) :
    parseActivityLine (lineChars a) = some a := by
  obtain ⟨d, ds, hds⟩ : ∃ d ds, pyStrOfInt a.priority = d :: ds := by
    cases hh : pyStrOfInt a.priority with
    | nil => exact absurd hh (pyStrOfInt_ne_nil a.priority)
    | cons d ds => exact ⟨d, ds, rfl⟩
  have hstrip : stripChars (lineChars a) = lineChars a := by
    apply stripChars_eq_self
    · intro c hc
      unfold lineChars at hc
      cases hd : a.choice.data with
      | nil =>
        rw [hd, List.nil_append, List.head?_cons] at hc
        injection hc with hc
        subst hc
        decide
      | cons x xs =>
        rw [hd, List.cons_append, List.head?_cons] at hc
        injection hc with hc
        subst hc
        unfold noLeadingSpace at hl
        rw [hd] at hl
        simpa using hl
    · intro c hc
      unfold lineChars at hc
      rw [hds, List.getLast?_append, List.getLast?_cons_cons] at hc
      have hy : (d :: ds).getLast? = some ((d :: ds).getLast (by simp)) :=
        List.getLast?_eq_getLast _ _
      rw [hy] at hc
      simp only [Option.or_some] at hc
      injection hc with hc
      have hmem : c ∈ d :: ds := hc ▸ List.getLast_mem _
      rw [← hds] at hmem
      exact pyStrOfInt_no_space a.priority c hmem
  unfold parseActivityLine
  rw [hstrip]
  unfold lineChars
  dsimp only
  rw [splitOnChar_append_sep ',' _ _ (pyStrOfInt_no_comma a.priority)]
  rw [List.getLastD_concat, List.dropLast_concat]
  rw [pyInt_pyStrOfInt]
  rw [joinWithChar_splitOnChar]

theorem mapM_parse (acts : List Activity)
    (h : ∀ a ∈ acts, '\n' ∉ a.choice.data ∧ noLeadingSpace a.choice = true) :
    (acts.map lineChars).mapM parseActivityLine = some acts := by
  induction acts with
  | nil => rfl
  | cons a as ih =>
    rw [List.map_cons, List.mapM_cons,
      parseActivityLine_lineChars a (h a (List.mem_cons_self a as)).2,
      ih (fun x hx => h x (List.mem_cons_of_mem a hx))]
    rfl

/-- C9 counterexample: two activity lists inside the claim's hypotheses
(names with no `'\n'`, integer priorities) that the round trip does not
restore.  First, the name `" A"`: `read_activities` applies `line.strip()`,
which removes the name's leading space.  Second, the name `"A\rB"`: the file
is read in text mode with universal newlines, so the written `'\r'` becomes
a line break on read, the first resulting line `"A"` has no parseable
trailing integer, and `int` raises (`read_activities` returns `none`). -/
theorem c9_counterexample_leading_space :
    (read_activities (write_activities [⟨" A", 1⟩]) = some [⟨"A", 1⟩]
      ∧ some [(⟨" A", 1⟩ : Activity)] ≠ some [(⟨"A", 1⟩ : Activity)])
    ∧ read_activities (write_activities [⟨"A\rB", 1⟩]) = none := by decide

/-- C9 amended: for every ordered list of activities whose names contain no
newline character — neither `'\n'` nor `'\r'`, since text-mode reading
treats both as line terminators — *and do not begin with a character of
Python's `str.strip()` whitespace set* (with integer priorities),
`write_activities` then `read_activities` restores the list exactly — names
may contain commas (only the final comma-delimited field is parsed as the
priority, the earlier fields rejoin with commas), and writing fully
overwrites the file in list order. -/
theorem c9_round_trip (acts : List Activity)
    (h : ∀ a ∈ acts, ('\n' ∉ a.choice.data ∧ '\r' ∉ a.choice.data)
      ∧ noLeadingSpace a.choice = true) :
    read_activities (write_activities acts) = some acts := by
  unfold read_activities
  rw [normalizeNewlines_no_cr _ (cr_not_mem_write acts (fun a ha => (h a ha).1.2)),
    fileLines_write acts (fun a ha => (h a ha).1.1)]
  exact mapM_parse acts (fun a ha => ⟨(h a ha).1.1, (h a ha).2⟩)

/-- C9 witness: a list with a comma-containing name and a negative priority
round-trips exactly. -/
theorem c9_witness :
    read_activities (write_activities [⟨"Read,ing", -3⟩, ⟨"Gaming", 10⟩])
      = some [⟨"Read,ing", -3⟩, ⟨"Gaming", 10⟩] :=
  c9_round_trip [⟨"Read,ing", -3⟩, ⟨"Gaming", 10⟩] (by decide)

/-! ## C8: Container focus cycling -/

theorem find?_range'_eq_some (p : Nat → Bool) (s len m : Nat)
    (h1 : s ≤ m) (h2 : m < s + len) (h3 : p m = true)
    (h4 : ∀ j, s ≤ j → j < m → p j = false) :
    (List.range' s len).find? p = some m := by
  induction len generalizing s with
  | zero => omega
  | succ len ih =>
    rw [List.range'_succ, List.find?_cons]
    cases hps : p s with
    | true =>
      have hsm : s = m := by
        by_contra hne
        rw [h4 s le_rfl (by omega)] at hps
        exact Bool.noConfusion hps
      subst hsm
      rfl
    | false =>
      have hne : s ≠ m := by
        intro hh
        subst hh
        rw [h3] at hps
        exact Bool.noConfusion hps
      exact ih (s + 1) (by omega) (by omega) (fun j hj1 hj2 => h4 j (by omega) hj2)

theorem stateFrom_cons (b : Bool) (bs : List Bool) (start p : Nat) :
    stateFrom (b :: bs) start p = ⟨b, start == p⟩ :: stateFrom bs (start + 1) p := rfl

theorem stateFrom_length (sel : List Bool) (start p : Nat) :
    (stateFrom sel start p).length = sel.length := by
  induction sel generalizing start with
  | nil => rfl
  | cons b bs ih => simp [stateFrom_cons, ih]

theorem stateFrom_getElem? (sel : List Bool) (start p n : Nat) :
    (stateFrom sel start p)[n]? = sel[n]?.map (fun b => ⟨b, (start + n) == p⟩) := by
  induction sel generalizing start n with
  | nil => simp [stateFrom]
  | cons b bs ih =>
    cases n with
    | zero => simp [stateFrom_cons]
    | succ n =>
      rw [show start + (n + 1) = start + 1 + n by omega]
      simp [stateFrom_cons, ih]

theorem stateFrom_map_selectable (sel : List Bool) (start p : Nat) :
    (stateFrom sel start p).map (·.selectable) = sel := by
  induction sel generalizing start with
  | nil => rfl
  | cons b bs ih => simp [stateFrom_cons, ih]

theorem stateFrom_findIdx? (sel : List Bool) (start p i : Nat)
    (h1 : start ≤ p) (h2 : p - start < sel.length) :
    (stateFrom sel start p).findIdx? (·.selected) i = some (p - start + i) := by
  induction sel generalizing start i with
  | nil => simp at h2
  | cons b bs ih =>
    rw [stateFrom_cons, List.findIdx?_cons]
    dsimp only
    by_cases hsp : start = p
    · subst hsp
      rw [if_pos (by simp)]
      exact congrArg some (by omega)
    · rw [if_neg (by simp [hsp])]
      have h2' : p - start < bs.length + 1 := by simpa using h2
      have hr := ih (start + 1) (i + 1) (by omega) (by omega)
      rw [hr]
      exact congrArg some (by omega)

theorem mem_selPositions (sel : List Bool) (j : Nat) :
    j ∈ selPositions sel ↔ j < sel.length ∧ sel.getD j false = true := by
  unfold selPositions
  rw [List.mem_filter, List.mem_range]

theorem selPositions_sorted (sel : List Bool) : (selPositions sel).Sorted (· < ·) :=
  List.Pairwise.filter _ (List.sorted_lt_range sel.length)

theorem selPositions_get_lt (sel : List Bool) (a b : Fin (selPositions sel).length)
    (hab : a.val < b.val) : (selPositions sel).get a < (selPositions sel).get b :=
  (selPositions_sorted sel).rel_get_of_lt hab

theorem selPositions_get_le (sel : List Bool) (a b : Fin (selPositions sel).length)
    (hab : a.val ≤ b.val) : (selPositions sel).get a ≤ (selPositions sel).get b := by
  rcases Nat.lt_or_eq_of_le hab with h | h
  · exact Nat.le_of_lt (selPositions_get_lt sel a b h)
  · rw [Fin.ext h]

theorem selPositions_get_lt_length (sel : List Bool) (a : Fin (selPositions sel).length) :
    (selPositions sel).get a < sel.length ∧ sel.getD ((selPositions sel).get a) false = true :=
  (mem_selPositions sel _).mp (List.get_mem _ _ a.isLt)

theorem selPositions_not_mem (sel : List Bool) (j : Nat)
    (h : ∀ n : Fin (selPositions sel).length, (selPositions sel).get n ≠ j) :
    sel.getD j false = false := by
  by_cases hlen : j < sel.length
  · by_contra hb
    rw [Bool.not_eq_false] at hb
    obtain ⟨n, hn⟩ := List.mem_iff_get.mp ((mem_selPositions sel j).mpr ⟨hlen, hb⟩)
    exact h n hn
  · exact List.getD_eq_default _ _ (by omega)

theorem selPositions_none_between (sel : List Bool) (k : Nat)
    (hk : k + 1 < (selPositions sel).length) (j : Nat)
    (hj1 : (selPositions sel).get ⟨k, Nat.lt_of_succ_lt hk⟩ < j)
    (hj2 : j < (selPositions sel).get ⟨k + 1, hk⟩) :
    sel.getD j false = false := by
  apply selPositions_not_mem
  intro n hn
  by_cases hc : n.val ≤ k
  · have := selPositions_get_le sel n ⟨k, Nat.lt_of_succ_lt hk⟩ hc
    omega
  · have := selPositions_get_le sel ⟨k + 1, hk⟩ n (show k + 1 ≤ n.val by omega)
    omega

theorem selPositions_length (sel : List Bool) :
    (selPositions sel).length = (sel.filter id).length := by
  induction sel with
  | nil => rfl
  | cons b bs ih =>
    unfold selPositions at ih ⊢
    rw [List.length_cons, List.range_succ_eq_map, List.filter_cons]
    have hmap : (List.filter (fun j => (b :: bs).getD j false) ((List.range bs.length).map Nat.succ))
        = ((List.range bs.length).filter (fun j => bs.getD j false)).map Nat.succ := by
      rw [List.filter_map]
      rfl
    cases b with
    | true =>
      rw [if_pos (show ((true :: bs).getD 0 false) = true from rfl), hmap,
        List.length_cons, List.length_map, ih,
        show List.filter id (true :: bs) = true :: List.filter id bs from rfl,
        List.length_cons]
    | false =>
      rw [if_neg (show ¬((false :: bs).getD 0 false = true) from fun h => Bool.noConfusion h), hmap,
        List.length_map, ih,
        show List.filter id (false :: bs) = List.filter id bs from rfl]

theorem nextSelIdx_cyclic (sel : List Bool) (k : Fin (selPositions sel).length) :
    nextSelIdx sel ((selPositions sel).get k)
      = (selPositions sel).get
          ⟨(k.val + 1) % (selPositions sel).length,
            Nat.mod_lt _ (Nat.lt_of_le_of_lt (Nat.zero_le _) k.isLt)⟩ := by
  have hN : 0 < (selPositions sel).length := Nat.lt_of_le_of_lt (Nat.zero_le _) k.isLt
  obtain ⟨hplen, hpsel⟩ := selPositions_get_lt_length sel k
  unfold nextSelIdx
  by_cases hkN : k.val + 1 < (selPositions sel).length
  · obtain ⟨hp'len, hp'sel⟩ := selPositions_get_lt_length sel ⟨k.val + 1, hkN⟩
    have hpp' : (selPositions sel).get k < (selPositions sel).get ⟨k.val + 1, hkN⟩ :=
      selPositions_get_lt sel k ⟨k.val + 1, hkN⟩ (Nat.lt_succ_self _)
    have hkk : (selPositions sel).get ⟨k.val, Nat.lt_of_succ_lt hkN⟩
        = (selPositions sel).get k := rfl
    have hfind := find?_range'_eq_some
      (fun m => sel.getD (((selPositions sel).get k + m) % sel.length) false) 1 sel.length
      ((selPositions sel).get ⟨k.val + 1, hkN⟩ - (selPositions sel).get k)
      (by omega) (by omega)
      (by
        dsimp only
        rw [show (selPositions sel).get k + ((selPositions sel).get ⟨k.val + 1, hkN⟩
            - (selPositions sel).get k) = (selPositions sel).get ⟨k.val + 1, hkN⟩ by omega,
          Nat.mod_eq_of_lt hp'len]
        exact hp'sel)
      (by
        intro j hj1 hj2
        dsimp only
        rw [Nat.mod_eq_of_lt (by omega)]
        exact selPositions_none_between sel k.val hkN _ (by omega) (by omega))
    rw [hfind]
    dsimp only
    rw [show (selPositions sel).get k + ((selPositions sel).get ⟨k.val + 1, hkN⟩
        - (selPositions sel).get k) = (selPositions sel).get ⟨k.val + 1, hkN⟩ by omega,
      Nat.mod_eq_of_lt hp'len]
    congr 1
    exact Fin.ext (by simp [Nat.mod_eq_of_lt hkN])
  · obtain ⟨hs0len, hs0sel⟩ := selPositions_get_lt_length sel ⟨0, hN⟩
    have hs0le : (selPositions sel).get ⟨0, hN⟩ ≤ (selPositions sel).get k :=
      selPositions_get_le sel ⟨0, hN⟩ k (Nat.zero_le _)
    have hklast : k.val = (selPositions sel).length - 1 := by
      have := k.isLt
      omega
    have hfind := find?_range'_eq_some
      (fun m => sel.getD (((selPositions sel).get k + m) % sel.length) false) 1 sel.length
      (sel.length - (selPositions sel).get k + (selPositions sel).get ⟨0, hN⟩)
      (by omega) (by omega)
      (by
        dsimp only
        rw [show (selPositions sel).get k + (sel.length - (selPositions sel).get k
            + (selPositions sel).get ⟨0, hN⟩)
            = sel.length + (selPositions sel).get ⟨0, hN⟩ by omega,
          Nat.add_mod_left, Nat.mod_eq_of_lt hs0len]
        exact hs0sel)
      (by
        intro j hj1 hj2
        dsimp only
        by_cases hx : (selPositions sel).get k + j < sel.length
        · rw [Nat.mod_eq_of_lt hx]
          apply selPositions_not_mem
          intro n hn
          have hle : (selPositions sel).get n ≤ (selPositions sel).get k :=
            selPositions_get_le sel n k (by omega)
          omega
        · have hxx : ((selPositions sel).get k + j) % sel.length
              = (selPositions sel).get k + j - sel.length := by
            rw [Nat.mod_eq_sub_mod (by omega), Nat.mod_eq_of_lt (by omega)]
          rw [hxx]
          apply selPositions_not_mem
          intro n hn
          have hge : (selPositions sel).get ⟨0, hN⟩ ≤ (selPositions sel).get n :=
            selPositions_get_le sel ⟨0, hN⟩ n (Nat.zero_le _)
          omega)
    rw [hfind]
    dsimp only
    rw [show (selPositions sel).get k + (sel.length - (selPositions sel).get k
        + (selPositions sel).get ⟨0, hN⟩)
        = sel.length + (selPositions sel).get ⟨0, hN⟩ by omega,
      Nat.add_mod_left, Nat.mod_eq_of_lt hs0len]
    congr 1
    apply Fin.ext
    show 0 = (k.val + 1) % (selPositions sel).length
    rw [show k.val + 1 = (selPositions sel).length by omega, Nat.mod_self]

theorem containerDown_stateAt_general (sel : List Bool) (p p' : Nat)
    (hplen : p < sel.length) (hp'len : p' < sel.length)
    (hnext : nextSelIdx sel p = p') :
    containerDown (stateAt sel p) = stateAt sel p' := by
  have hselp : sel[p]? = some (sel.getD p false) := by
    rw [List.getElem?_eq_getElem hplen, List.getD_eq_getElem sel false hplen]
  have hselp' : sel[p']? = some (sel.getD p' false) := by
    rw [List.getElem?_eq_getElem hp'len, List.getD_eq_getElem sel false hp'len]
  have hfind : (stateAt sel p).findIdx? (·.selected) = some p := by
    have h := stateFrom_findIdx? sel 0 p 0 (Nat.zero_le p) (by simpa using hplen)
    simpa using h
  have hgetp : (stateAt sel p)[p]? = some ⟨sel.getD p false, true⟩ := by
    show (stateFrom sel 0 p)[p]? = _
    rw [stateFrom_getElem?, hselp]
    simp
  unfold containerDown
  rw [hfind]
  dsimp only
  rw [hgetp]
  dsimp only
  rw [show (stateAt sel p).map (·.selectable) = sel from stateFrom_map_selectable sel 0 p, hnext]
  have hget' : ((stateAt sel p).set p ⟨sel.getD p false, false⟩)[p']?
      = some ⟨sel.getD p' false, false⟩ := by
    by_cases hpp : p' = p
    · subst hpp
      rw [List.getElem?_set_self', hgetp]
      rfl
    · rw [List.getElem?_set_ne (fun h => hpp h.symm)]
      show (stateFrom sel 0 p)[p']? = _
      rw [stateFrom_getElem?, hselp']
      simp [hpp]
  rw [hget']
  dsimp only
  apply List.ext_getElem?
  intro n
  by_cases hn' : n = p'
  · subst hn'
    rw [List.getElem?_set_self', hget']
    show _ = (stateFrom sel 0 n)[n]?
    rw [stateFrom_getElem?, hselp']
    simp
  · rw [List.getElem?_set_ne (fun h => hn' h.symm)]
    show ((stateFrom sel 0 p).set p ⟨sel.getD p false, false⟩)[n]? = (stateFrom sel 0 p')[n]?
    by_cases hnp : n = p
    · subst hnp
      rw [List.getElem?_set_self']
      rw [show (stateFrom sel 0 n)[n]? = some ⟨sel.getD n false, true⟩ from hgetp]
      rw [stateFrom_getElem?, hselp]
      simp [hn']
    · rw [List.getElem?_set_ne (fun h => hnp h.symm), stateFrom_getElem?, stateFrom_getElem?]
      cases hsn : sel[n]? with
      | none => rfl
      | some b => simp [hnp, hn']

theorem containerDown_stateAt (sel : List Bool) (k : Fin (selPositions sel).length) :
    containerDown (stateAt sel ((selPositions sel).get k))
      = stateAt sel ((selPositions sel).get
          ⟨(k.val + 1) % (selPositions sel).length,
            Nat.mod_lt _ (Nat.lt_of_le_of_lt (Nat.zero_le _) k.isLt)⟩) :=
  containerDown_stateAt_general sel _ _
    (selPositions_get_lt_length sel k).1
    (selPositions_get_lt_length sel _).1
    (nextSelIdx_cyclic sel k)

theorem stateAt_get_congr (sel : List Bool) (a b : Fin (selPositions sel).length)
    (h : a.val = b.val) :
    stateAt sel ((selPositions sel).get a) = stateAt sel ((selPositions sel).get b) := by
  rw [Fin.ext h]

theorem containerDown_iterate (sel : List Bool) (m : Nat)
    (k : Fin (selPositions sel).length) :
    containerDown^[m] (stateAt sel ((selPositions sel).get k))
      = stateAt sel ((selPositions sel).get
          ⟨(k.val + m) % (selPositions sel).length,
            Nat.mod_lt _ (Nat.lt_of_le_of_lt (Nat.zero_le _) k.isLt)⟩) := by
  induction m generalizing k with
  | zero =>
    simp only [Function.iterate_zero, id_eq]
    exact stateAt_get_congr sel _ _
      (show k.val = (k.val + 0) % (selPositions sel).length by
        rw [Nat.add_zero, Nat.mod_eq_of_lt k.isLt])
  | succ m ih =>
    rw [Function.iterate_succ_apply, containerDown_stateAt sel k,
      ih ⟨(k.val + 1) % (selPositions sel).length,
        Nat.mod_lt _ (Nat.lt_of_le_of_lt (Nat.zero_le _) k.isLt)⟩]
    exact stateAt_get_congr sel _ _
      (show ((k.val + 1) % (selPositions sel).length + m) % (selPositions sel).length
          = (k.val + (m + 1)) % (selPositions sel).length by
        rw [Nat.mod_add_mod]
        congr 1
        omega)

/-- C8: for a Container whose component list marks exactly one component as
selected (at index `i₀`), that component being selectable (hence at least
one selectable component exists), sending the down-arrow key exactly N times
(N = number of selectable components) returns the container to exactly its
original state: focus cycling is a period-N cycle through the selectable
widgets. -/
theorem c8_focus_cycle (cs : List Comp) (i₀ : Nat) (h₀ : i₀ < cs.length)
    (hsel : ∀ n, n < cs.length → (cs.getD n ⟨false, false⟩).selected = (n == i₀))
    (hselectable : (cs.getD i₀ ⟨false, false⟩).selectable = true) :
    containerDown^[(cs.filter (·.selectable)).length] cs = cs := by
  have hcs : cs = stateAt (cs.map (·.selectable)) i₀ := by
    apply List.ext_getElem?
    intro n
    show cs[n]? = (stateFrom (cs.map (·.selectable)) 0 i₀)[n]?
    rw [stateFrom_getElem?, List.getElem?_map]
    by_cases hn : n < cs.length
    · rw [List.getElem?_eq_getElem hn]
      simp only [Option.map_some']
      have h2 := hsel n hn
      rw [List.getD_eq_getElem cs _ hn] at h2
      congr 1
      conv_lhs => rw [show (cs[n] : Comp) = ⟨cs[n].selectable, cs[n].selected⟩ from rfl]
      rw [h2, Nat.zero_add]
    · rw [List.getElem?_eq_none (by omega)]
      rfl
  have hmem : i₀ ∈ selPositions (cs.map (·.selectable)) := by
    rw [mem_selPositions]
    refine ⟨by simpa using h₀, ?_⟩
    rw [List.getD_eq_getElem _ false (by simpa using h₀), List.getElem_map]
    rw [List.getD_eq_getElem cs _ h₀] at hselectable
    exact hselectable
  obtain ⟨k, hk⟩ := List.mem_iff_get.mp hmem
  have hN : (selPositions (cs.map (·.selectable))).length
      = (cs.filter (·.selectable)).length := by
    rw [selPositions_length, List.filter_map, List.length_map]
    congr 1
  have hiter := containerDown_iterate (cs.map (·.selectable))
    (selPositions (cs.map (·.selectable))).length k
  have hidx : (⟨(k.val + (selPositions (cs.map (·.selectable))).length)
        % (selPositions (cs.map (·.selectable))).length,
      Nat.mod_lt _ (Nat.lt_of_le_of_lt (Nat.zero_le _) k.isLt)⟩
        : Fin (selPositions (cs.map (·.selectable))).length) = k := by
    apply Fin.ext
    show (k.val + (selPositions (cs.map (·.selectable))).length)
        % (selPositions (cs.map (·.selectable))).length = k.val
    rw [Nat.add_mod_right]
    exact Nat.mod_eq_of_lt k.isLt
  rw [hidx, hk, ← hcs] at hiter
  rw [← hN]
  exact hiter

/-- C8 witness: a Label plus two Buttons (second component focused): two
down-arrow presses return to the original state. -/
theorem c8_witness :
    containerDown^[(([⟨false, false⟩, ⟨true, true⟩, ⟨true, false⟩] : List Comp).filter
      (·.selectable)).length]
      ([⟨false, false⟩, ⟨true, true⟩, ⟨true, false⟩] : List Comp)
      = [⟨false, false⟩, ⟨true, true⟩, ⟨true, false⟩] :=
  c8_focus_cycle [⟨false, false⟩, ⟨true, true⟩, ⟨true, false⟩] 1 (by decide) (by decide)
    (by decide)

end WeekPlanner

